import Mathlib

/-!
Shallow embedding of the openclaw-mem0 memory plugin (TypeScript sources under
src/) and proofs about the frozen claims C1..C10.

Modelling conventions:
* JavaScript strings are modelled as `List Char` (`Str`).  JS string indices
  are UTF-16 code units; for characters outside the basic multilingual plane
  the unit count differs from the code-point count, but no claim and no
  concrete input below involves such characters.
* `Array.prototype.sort` with a consistent comparator is (per ES2019) a
  stable sort; it is modelled by the stable insertion sort `sortStable lt`
  where `lt a b` means `comparator a b < 0`.
* IEEE-754 doubles: every arithmetic the claims touch is carried out on
  values where the double computation agrees with exact rational arithmetic
  (checked for the concrete table values and budgets involved), so floats
  are modelled by `ℚ`/`Nat` with explicit floor/ceiling.
* External boundaries (the mem0 SDK hot store, the fetch transport, JSON
  parsing of archive lines) enter as explicit data: lists standing for store
  contents, `Option`/function parameters standing for parse results and
  failure injection.
-/

namespace Mem0

/-- JS strings as lists of characters. -/
abbrev Str := List Char

/-- `String.prototype.toLowerCase`, restricted to the ASCII mapping of
`Char.toLower`; all concrete inputs below are ASCII or CJK characters that
the JS function also leaves unchanged apart from ASCII letters. -/
def toLowerStr (s : Str) : Str := s.map Char.toLower

/-- The whitespace class used by `String.prototype.trim` and `\s`,
restricted to the ASCII members (space, tab, LF, VT, FF, CR). -/
def isJsSpace (c : Char) : Bool :=
  c = ' ' || c = '\t' || c = '\n' || c = '\r' || c = Char.ofNat 11 || c = Char.ofNat 12

/-- `String.prototype.trim`. -/
def trimStr (s : Str) : Str :=
  ((s.dropWhile isJsSpace).reverse.dropWhile isJsSpace).reverse

/-- Does the first list occur at the start of the second one? -/
def startsWithList : Str → Str → Bool
  | [], _ => true
  | _ :: _, [] => false
  | c :: cs, d :: ds => c = d && startsWithList cs ds

/-- `haystack.includes(needle)` : substring containment. -/
def containsSub (needle : Str) : Str → Bool
  | [] => needle.isEmpty
  | c :: cs => startsWithList needle (c :: cs) || containsSub needle cs

/-- `haystack.endsWith(needle)`. -/
def endsWithList (needle haystack : Str) : Bool :=
  startsWithList needle.reverse haystack.reverse

/-- Worker for `splitChunks`: `acc` is the (reversed) chunk currently being
read. -/
def splitChunksAux (p : Char → Bool) : Str → Str → List Str
  | [], acc => if acc.isEmpty then [] else [acc.reverse]
  | c :: cs, acc =>
    if p c then
      if acc.isEmpty then splitChunksAux p cs []
      else acc.reverse :: splitChunksAux p cs []
    else splitChunksAux p cs (c :: acc)

/-- `s.split(regex)` for a one-character-class regex with `+`: the maximal
delimiter-free chunks of `s`.  JS additionally yields empty strings at the
two ends; every use in the source immediately filters those out
(`filter(Boolean)` or a length bound), so they are dropped here. -/
def splitChunks (p : Char → Bool) (s : Str) : List Str := splitChunksAux p s []

/-- Insert `x` behind every element that the comparator places strictly
before it (`lt y x` = comparator put `y` first). -/
def insertByLt (lt : α → α → Bool) (x : α) : List α → List α
  | [] => [x]
  | y :: ys => if lt y x then y :: insertByLt lt x ys else x :: y :: ys

/-- Stable insertion sort: the model of `Array.prototype.sort(cmp)` for a
consistent comparator, `lt a b ↔ cmp(a,b) < 0`. -/
def sortStable (lt : α → α → Bool) : List α → List α
  | [] => []
  | x :: xs => insertByLt lt x (sortStable lt xs)

theorem perm_insertByLt (lt : α → α → Bool) (x : α) (l : List α) :
    List.Perm (insertByLt lt x l) (x :: l) := by
  induction l with
  | nil => exact List.Perm.refl _
  | cons y ys ih =>
    by_cases h : lt y x
    · simp only [insertByLt, h, if_true]
      exact (ih.cons y).trans (List.Perm.swap x y ys)
    · simp [insertByLt, h]

theorem perm_sortStable (lt : α → α → Bool) (l : List α) :
    List.Perm (sortStable lt l) l := by
  induction l with
  | nil => exact List.Perm.refl _
  | cons x xs ih =>
    exact (perm_insertByLt lt x (sortStable lt xs)).trans (ih.cons x)

theorem length_sortStable (lt : α → α → Bool) (l : List α) :
    (sortStable lt l).length = l.length :=
  (perm_sortStable lt l).length_eq

theorem mem_sortStable (lt : α → α → Bool) (l : List α) (a : α) :
    a ∈ sortStable lt l ↔ a ∈ l :=
  (perm_sortStable lt l).mem_iff

theorem pairwise_insertByLt (lt : α → α → Bool)
    (hasymm : ∀ a b, lt a b = true → lt b a = false)
    (htrans : ∀ a b c, lt b a = false → lt c b = false → lt c a = false)
    (x : α) (l : List α) (hl : l.Pairwise (fun a b => lt b a = false)) :
    (insertByLt lt x l).Pairwise (fun a b => lt b a = false) := by
  induction l with
  | nil => simp [insertByLt]
  | cons y ys ih =>
    rcases List.pairwise_cons.mp hl with ⟨hy, hys⟩
    by_cases h : lt y x
    · simp only [insertByLt, h, if_true]
      refine List.pairwise_cons.mpr ⟨?_, ih hys⟩
      intro b hb
      rcases List.mem_cons.mp (((perm_insertByLt lt x ys).mem_iff).mp hb) with hbx | hbmem
      · rw [hbx]; exact hasymm y x h
      · exact hy b hbmem
    · simp only [insertByLt, h, Bool.false_eq_true, if_false]
      refine List.pairwise_cons.mpr ⟨?_, hl⟩
      intro b hb
      have hyx : lt y x = false := by
        cases hxy : lt y x with
        | false => rfl
        | true => exact absurd hxy h
      rcases List.mem_cons.mp hb with hby | hbmem
      · subst hby; exact hyx
      · exact htrans x y b hyx (hy b hbmem)

theorem pairwise_sortStable (lt : α → α → Bool)
    (hasymm : ∀ a b, lt a b = true → lt b a = false)
    (htrans : ∀ a b c, lt b a = false → lt c b = false → lt c a = false)
    (l : List α) :
    (sortStable lt l).Pairwise (fun a b => lt b a = false) := by
  induction l with
  | nil => simp [sortStable]
  | cons x xs ih => exact pairwise_insertByLt lt hasymm htrans x (sortStable lt xs) ih

/-- The `MemoryItem` record of `src/types.ts`, with the ad-hoc `_scope` /
`_source` stamps the archive search adds.  `created_at` / `updated_at` are
ISO date strings in the source and are compared through
`new Date(x).getTime()`; they are modelled directly as epoch milliseconds.
`score` is a float in `[0,1]`, modelled as `ℚ`. -/
structure MemoryItem where
  id : String
  memory : Str
  userId : Option String := none
  score : Option ℚ := none
  createdAt : Option Int := none
  updatedAt : Option Int := none
  scopeTag : Option String := none
  sourceTag : Option String := none
deriving DecidableEq

def longTermTag : String := "long-term"

def archiveTag : String := "archive"

/-- One line of `mem0-archive.jsonl` together with the outcome of
`JSON.parse` on it (`none` = the parse throws, i.e. a malformed line).
JSON parsing itself is an external library call; a line influences
`ArchiveManager.search` only through its raw text and its parse result. -/
structure ArchiveLine where
  raw : Str
  parsed : Option MemoryItem
deriving DecidableEq

/-- `query.toLowerCase().split(/\s+/).filter(k => k.length > 1)` from
`ArchiveManager.search` (src/src/archive.ts). -/
def searchKeywordsOf (query : Str) : List Str :=
  (splitChunks isJsSpace (toLowerStr query)).filter (fun k => decide (1 < k.length))

/-- `mem._scope = "long-term"; mem._source = "archive"`. -/
def stampArchive (m : MemoryItem) : MemoryItem :=
  { m with scopeTag := some longTermTag, sourceTag := some archiveTag }

/-- One iteration of the line loop in `ArchiveManager.search`: blank lines
are skipped, a line matches when its lowercased text contains at least one
keyword, matched lines are JSON-parsed (malformed ones are counted and
skipped) and stamped. -/
def matchedMemory (keywords : List Str) (line : ArchiveLine) : Option MemoryItem :=
  if (trimStr line.raw).isEmpty then none
  else if keywords.any (fun k => containsSub k (toLowerStr line.raw)) then
    match line.parsed with
    | some mem => some (stampArchive mem)
    | none => none
  else none

/-- The ranking count of `ArchiveManager.search`:
`keywords.filter(k => m.memory.toLowerCase().includes(k)).length`.
Duplicated query tokens are counted with multiplicity, exactly as in the
source. -/
def keywordHits (keywords : List Str) (m : MemoryItem) : Nat :=
  (keywords.filter (fun k => containsSub k (toLowerStr m.memory))).length

/-- `ArchiveManager.search(query, limit)` over the archive lines.  The
collection loop is rendered as `filterMap`, the comparator
`countB - countA` as the stable sort with `lt a b ↔ hits b < hits a`,
`results.slice(0, limit)` as `take`. -/
def archiveSearch (lines : List ArchiveLine) (query : Str) (limit : Nat) : List MemoryItem :=
  let keywords := searchKeywordsOf query
  if keywords.isEmpty then []
  else
    (sortStable (fun a b => decide (keywordHits keywords b < keywordHits keywords a))
      (lines.filterMap (matchedMemory keywords))).take limit

/-- Modelled from the spec: the tokenizer that claim C4 describes, splitting
the query on whitespace AND punctuation (the source splits on whitespace
only).  The punctuation class is the ASCII punctuation the spec's examples
need. -/
def isSpecPunct (c : Char) : Bool :=
  c = ',' || c = '.' || c = ';' || c = ':' || c = '!' || c = '?' || c = '-' || c = '_'

/-- Modelled from the spec: `Archive.search` as claim C4 states it —
tokens split on whitespace and punctuation, a line matches on any token,
ranking by the count of DISTINCT matched tokens. -/
def specArchiveSearch (lines : List ArchiveLine) (query : Str) (limit : Nat) : List MemoryItem :=
  let keywords := ((splitChunks (fun c => isJsSpace c || isSpecPunct c) (toLowerStr query)).filter
    (fun k => decide (1 < k.length))).dedup
  if keywords.isEmpty then []
  else
    (sortStable (fun a b => decide (keywordHits keywords b < keywordHits keywords a))
      (lines.filterMap (matchedMemory keywords))).take limit

theorem matchedMemory_stamp (keywords : List Str) (line : ArchiveLine) (m : MemoryItem)
    (h : matchedMemory keywords line = some m) :
    m.sourceTag = some archiveTag ∧ m.scopeTag = some longTermTag := by
  unfold matchedMemory at h
  split_ifs at h
  cases hp : line.parsed with
  | none => rw [hp] at h; exact absurd h (by simp)
  | some mem =>
    rw [hp] at h
    have hm : m = stampArchive mem := by
      simp only [Option.some.injEq] at h
      exact h.symm
    rw [hm]
    exact ⟨rfl, rfl⟩

theorem matchedMemory_nil_keywords (line : ArchiveLine) :
    matchedMemory [] line = none := by
  simp [matchedMemory]

/-- C4 (amended): `Archive.search` tokenizes the query on WHITESPACE ONLY
into lowercase tokens of length ≥ 2 and returns `[]` when none exists; a
line matches iff its lowercased text contains at least one token as a
substring; matched lines are JSON-parsed (malformed matched lines are
counted and skipped) and stamped with the archive source marker; results
are ranked descending by the number of query-token occurrences (with
multiplicity, over the `memory` field) with ties in insertion order, and
the first `limit` are returned; when everything fits within `limit`, every
matched parsed line is returned. -/
theorem claim4_archive_search (lines : List ArchiveLine) (query : Str) (limit : Nat) :
    (searchKeywordsOf query = [] → archiveSearch lines query limit = []) ∧
    (archiveSearch lines query limit).length ≤ limit ∧
    (∀ m ∈ archiveSearch lines query limit,
      m.sourceTag = some archiveTag ∧ m.scopeTag = some longTermTag ∧
      ∃ line ∈ lines, matchedMemory (searchKeywordsOf query) line = some m) ∧
    (archiveSearch lines query limit).Pairwise
      (fun a b => keywordHits (searchKeywordsOf query) b ≤ keywordHits (searchKeywordsOf query) a) ∧
    ((lines.filterMap (matchedMemory (searchKeywordsOf query))).length ≤ limit →
      ∀ line ∈ lines, ∀ m, matchedMemory (searchKeywordsOf query) line = some m →
        m ∈ archiveSearch lines query limit) := by
  by_cases hk : (searchKeywordsOf query).isEmpty
  · have hknil : searchKeywordsOf query = [] := List.isEmpty_iff.mp hk
    have hres : archiveSearch lines query limit = [] := by
      unfold archiveSearch
      simp [hk]
    refine ⟨fun _ => hres, ?_, ?_, ?_, ?_⟩
    · rw [hres]; exact Nat.zero_le _
    · intro m hm; rw [hres] at hm; exact absurd hm (List.not_mem_nil m)
    · rw [hres]; exact List.Pairwise.nil
    · intro _ line _ m hm
      rw [hknil, matchedMemory_nil_keywords] at hm
      exact absurd hm (by simp)
  · have hres : archiveSearch lines query limit =
        (sortStable (fun a b => decide (keywordHits (searchKeywordsOf query) b <
            keywordHits (searchKeywordsOf query) a))
          (lines.filterMap (matchedMemory (searchKeywordsOf query)))).take limit := by
      unfold archiveSearch
      simp [hk]
    constructor
    · intro hnil
      rw [hnil] at hk
      simp at hk
    refine ⟨?_, ?_, ?_, ?_⟩
    · rw [hres]; exact List.length_take_le _ _
    · intro m hm
      rw [hres] at hm
      have hm2 := (mem_sortStable _ _ m).mp (List.take_subset _ _ hm)
      rcases List.mem_filterMap.mp hm2 with ⟨line, hline, heq⟩
      rcases matchedMemory_stamp _ line m heq with ⟨hs1, hs2⟩
      exact ⟨hs1, hs2, line, hline, heq⟩
    · rw [hres]
      have hpw := pairwise_sortStable
        (fun a b => decide (keywordHits (searchKeywordsOf query) b <
          keywordHits (searchKeywordsOf query) a))
        (by intro a b h; simp only [decide_eq_true_eq] at h; simp; omega)
        (by intro a b c h1 h2; simp only [decide_eq_false_iff_not, not_lt] at h1 h2 ⊢; omega)
        (lines.filterMap (matchedMemory (searchKeywordsOf query)))
      have := List.Pairwise.sublist (List.take_sublist limit _) hpw
      exact this.imp (by intro a b h; simp only [decide_eq_false_iff_not, not_lt] at h; exact h)
    · intro hlen line hline m hm
      rw [hres]
      have hlen2 : (sortStable (fun a b => decide (keywordHits (searchKeywordsOf query) b <
          keywordHits (searchKeywordsOf query) a))
          (lines.filterMap (matchedMemory (searchKeywordsOf query)))).length ≤ limit := by
        rw [length_sortStable]; exact hlen
      rw [List.take_of_length_le hlen2]
      exact (mem_sortStable _ _ m).mpr (List.mem_filterMap.mpr ⟨line, hline, hm⟩)

def c4Memory : MemoryItem := { id := "a1", memory := "I like tea".data }

def c4Line : ArchiveLine := { raw := "memory I like tea".data, parsed := some c4Memory }

/-- C4 counterexample: the claim says the query is tokenized on whitespace
AND punctuation, so for the query `tea,cup` the archive line containing
`tea` must match and be returned; the source splits on whitespace only, the
sole token is `tea,cup`, the line does not contain it, and the search
returns `[]`.  The second conjunct evaluates the spec-worded variant on the
same input. -/
theorem claim4_counterexample :
    archiveSearch [c4Line] ("tea,cup".data) 10 = [] ∧
    specArchiveSearch [c4Line] ("tea,cup".data) 10 = [stampArchive c4Memory] := by
  decide

theorem claim4_witness :
    stampArchive c4Memory ∈ archiveSearch [c4Line] ("tea like".data) 10 ∧
    (archiveSearch [c4Line] ("tea like".data) 10).length ≤ 10 := by
  have h := claim4_archive_search [c4Line] ("tea like".data) 10
  refine ⟨?_, h.2.1⟩
  exact h.2.2.2.2 (by decide) c4Line (by decide) (stampArchive c4Memory) (by decide)

/-- Count of code points in U+4E00..U+9FFF, the `[一-鿿]` class of
`estimateTokens` (src/src/archive.ts). -/
def chineseCharCount (s : Str) : Nat :=
  (s.filter (fun c => decide (19968 ≤ c.toNat) && decide (c.toNat ≤ 40959))).length

/-- `estimateTokens`: `Math.ceil(chineseChars / 1.5 + otherChars / 4)`.
`c/1.5 + o/4 = (8c + 3o)/12` exactly; the double computation agrees with
the rational one for all realistic sizes (the exact value is an integer iff
`3 ∣ c`, in which case the doubles are exact; otherwise it is at distance
≥ 1/12 from every integer, far above the rounding error), so the ceiling
is modelled by exact ceiling division. -/
def estimateTokens (text : Str) : Nat :=
  if text.isEmpty then 0
  else
    let chineseChars := chineseCharCount text
    let otherChars := text.length - chineseChars
    (8 * chineseChars + 3 * otherChars + 11) / 12

/-- `MODEL_CONTEXT_LIMITS` in source (insertion) order, including the
terminal `default` entry. -/
def modelContextLimits : List (Str × Nat) :=
  [ ("gpt-4".data, 8192)
  , ("gpt-4-32k".data, 32768)
  , ("gpt-4-turbo".data, 128000)
  , ("gpt-4o".data, 128000)
  , ("gpt-3.5-turbo".data, 16385)
  , ("claude-3-opus".data, 200000)
  , ("claude-3-sonnet".data, 200000)
  , ("claude-3-haiku".data, 200000)
  , ("claude-3-5-sonnet".data, 200000)
  , ("deepseek-chat".data, 64000)
  , ("deepseek-coder".data, 16000)
  , ("moonshot-v1".data, 32000)
  , ("qwen-max".data, 32000)
  , ("qwen-plus".data, 32000)
  , ("abab6.5s-chat".data, 32000)
  , ("default".data, 8192) ]

/-- `findModelLimit`: the first table entry whose (lowercased) key is a
SUBSTRING of the lowercased model id wins; otherwise the `default` value
8192. -/
def findModelLimit (modelId : Str) : Nat :=
  match modelContextLimits.find? (fun e => containsSub (toLowerStr e.1) (toLowerStr modelId)) with
  | some e => e.2
  | none => 8192

/-- `SmartInjectionConfig` with its defaults.  `memoryBudgetRatio` is a
double in the source; it is modelled as an exact rational (see the float
note in the header). -/
structure SmartInjectionConfig where
  modelId : Str := "default".data
  maxContextTokens : Option Nat := none
  memoryBudgetRatio : ℚ := mkRat 3 20
  maxMemories : Nat := 20
  enableSummarization : Bool := true

/-- `maxContextTokens || findModelLimit(modelId)` (`0` is falsy in JS). -/
def effectiveContextLimit (cfg : SmartInjectionConfig) : Nat :=
  match cfg.maxContextTokens with
  | some n => if n = 0 then findModelLimit cfg.modelId else n
  | none => findModelLimit cfg.modelId

/-- The token budget of `buildMemoryContext`:
`Math.max(200, Math.min(4000, Math.floor(effectiveLimit * ratio)))`.
The floor of the rational product is written as integer division of its
numerator by its (positive) denominator so that the definition
kernel-evaluates; `memoryBudget_rawBudget` proves it equal to `⌊·⌋`. -/
def memoryBudget (cfg : SmartInjectionConfig) : Nat :=
  let rawBudget : Int :=
    ((effectiveContextLimit cfg : Int) * cfg.memoryBudgetRatio.num) / (cfg.memoryBudgetRatio.den : Int)
  (max 200 (min 4000 rawBudget)).toNat

theorem memoryBudget_rawBudget (L : ℕ) (q : ℚ) :
    ((L : Int) * q.num) / (q.den : Int) = Int.floor ((L : ℚ) * q) := by
  have hq : ((L : ℚ) * q) = (((L : Int) * q.num : Int) : ℚ) / ((q.den : ℕ) : ℚ) := by
    rw [mul_comm (L : ℚ) q]
    nth_rewrite 1 [← Rat.num_div_den q]
    push_cast
    ring
  rw [hq, Rat.floor_intCast_div_natCast]

def memoryOverhead : Nat := 50

def ellipsis : Str := "...".data

/-- `truncateMemory(mem, maxTokens)`. -/
def truncateMemory (mem : MemoryItem) (maxTokens : Nat) : MemoryItem :=
  let maxChars := maxTokens * 2
  if mem.memory.length ≤ maxChars then mem
  else { mem with memory := mem.memory.take (maxChars - 3) ++ ellipsis }

def memScore (m : MemoryItem) : ℚ := m.score.getD 0

def memCreatedMs (m : MemoryItem) : Int := m.createdAt.getD 0

/-- The sort comparator of `buildMemoryContext`: score descending, then
`created_at` descending (`lt a b` = comparator places `a` first). -/
def memoryLt (a b : MemoryItem) : Bool :=
  decide (memScore b < memScore a ∨ (memScore a = memScore b ∧ memCreatedMs b < memCreatedMs a))

/-- The selection loop of `buildMemoryContext`: walk the sorted list,
admitting a memory while the running token count stays within the budget;
stop at `maxMemories`; if nothing was selected and the first memory alone
overflows, include one truncated copy and report exactly the budget. -/
def selectMemoriesGo (budget maxMemories : Nat) (enableSummarization : Bool) :
    List MemoryItem → List MemoryItem → Nat → List MemoryItem × Nat
  | [], acc, cur => (acc.reverse, cur)
  | mem :: rest, acc, cur =>
    if maxMemories ≤ acc.length then (acc.reverse, cur)
    else
      let memTokens := estimateTokens mem.memory + 10
      if cur + memTokens ≤ budget then
        selectMemoriesGo budget maxMemories enableSummarization rest (mem :: acc) (cur + memTokens)
      else if acc.isEmpty && enableSummarization then
        ([truncateMemory mem (budget - memoryOverhead - 20)], budget)
      else (acc.reverse, cur)

/-- The result record of `buildMemoryContext`.  The rendered `context`
string is a display-only serialization of the selected memories
(`buildContextString`); it is represented here by the selected list
itself. -/
structure InjectionResult where
  selected : List MemoryItem
  injectedCount : Nat
  totalMemories : Nat
  estimatedTokens : Nat
  truncated : Bool
  summarized : Bool
deriving DecidableEq

/-- `buildMemoryContext(memories, config)` (src/src/archive.ts). -/
def buildMemoryContext (memories : List MemoryItem) (config : SmartInjectionConfig) :
    InjectionResult :=
  let budget := memoryBudget config
  if memories.length = 0 then
    { selected := [], injectedCount := 0, totalMemories := 0, estimatedTokens := 0,
      truncated := false, summarized := false }
  else
    let sorted := sortStable memoryLt memories
    let r := selectMemoriesGo budget config.maxMemories config.enableSummarization sorted [] memoryOverhead
    { selected := r.1, injectedCount := r.1.length, totalMemories := memories.length,
      estimatedTokens := r.2, truncated := decide (r.1.length < memories.length),
      summarized := r.1.any (fun m => endsWithList ellipsis m.memory) }

theorem memoryBudget_bounds (cfg : SmartInjectionConfig) :
    200 ≤ memoryBudget cfg ∧ memoryBudget cfg ≤ 4000 := by
  have h1 : (200 : Int) ≤ max 200 (min 4000
      (((effectiveContextLimit cfg : Int) * cfg.memoryBudgetRatio.num) /
        (cfg.memoryBudgetRatio.den : Int))) := le_max_left _ _
  have h2 : max 200 (min 4000
      (((effectiveContextLimit cfg : Int) * cfg.memoryBudgetRatio.num) /
        (cfg.memoryBudgetRatio.den : Int))) ≤ 4000 :=
    max_le (by norm_num) (min_le_left _ _)
  have hdef : memoryBudget cfg = (max 200 (min 4000
      (((effectiveContextLimit cfg : Int) * cfg.memoryBudgetRatio.num) /
        (cfg.memoryBudgetRatio.den : Int)))).toNat := rfl
  rw [hdef]
  generalize hB : max 200 (min 4000
      (((effectiveContextLimit cfg : Int) * cfg.memoryBudgetRatio.num) /
        (cfg.memoryBudgetRatio.den : Int))) = B at h1 h2
  omega

/-- C5 (amended): the model-context lookup is by case-insensitive SUBSTRING
containment, first matching table entry in insertion order; since `gpt-4`
precedes `gpt-4-32k` in the table and is contained in `gpt-4-32k`, both ids
resolve to 8192, and the budget `clamp(⌊model_ctx · 0.15⌋, 200, 4000)` is
1228 for both. -/
theorem claim5_token_budget :
    (∀ modelId : Str,
      memoryBudget { modelId := modelId } =
        (max 200 (min 4000 (Int.floor ((findModelLimit modelId : ℚ) * mkRat 3 20)))).toNat) ∧
    memoryBudget { modelId := "gpt-4".data } = 1228 ∧
    memoryBudget { modelId := "gpt-4-32k".data } = 1228 ∧
    findModelLimit ("gpt-4".data) = 8192 ∧
    findModelLimit ("gpt-4-32k".data) = 8192 := by
  refine ⟨?_, by decide, by decide, by decide, by decide⟩
  intro modelId
  unfold memoryBudget
  rw [memoryBudget_rawBudget]
  rfl

/-- C5 counterexample: the claim asserts that `gpt-4-32k` resolves to the
table value 32768 and budget 4000; on the code it resolves to the earlier
`gpt-4` entry (substring match), limit 8192 and budget 1228. -/
theorem claim5_counterexample :
    findModelLimit ("gpt-4-32k".data) ≠ 32768 ∧
    memoryBudget { modelId := "gpt-4-32k".data } ≠ 4000 := by
  decide

theorem selectMemoriesGo_bounds (budget maxM : Nat) (eSum : Bool)
    (l : List MemoryItem) :
    ∀ acc : List MemoryItem, ∀ cur : Nat, cur ≤ budget → acc.length ≤ maxM →
      (selectMemoriesGo budget maxM eSum l acc cur).2 ≤ budget ∧
      (selectMemoriesGo budget maxM eSum l acc cur).1.length ≤ maxM := by
  induction l with
  | nil =>
    intro acc cur hcur hacc
    simpa [selectMemoriesGo] using ⟨hcur, hacc⟩
  | cons mem rest ih =>
    intro acc cur hcur hacc
    unfold selectMemoriesGo
    by_cases hbreak : maxM ≤ acc.length
    · simpa [hbreak] using ⟨hcur, hacc⟩
    · simp only [hbreak, if_false]
      by_cases hfit : cur + (estimateTokens mem.memory + 10) ≤ budget
      · simp only [hfit, if_true]
        exact ih (mem :: acc) (cur + (estimateTokens mem.memory + 10)) hfit
          (by simp only [List.length_cons]; omega)
      · simp only [hfit, if_false]
        by_cases htr : (acc.isEmpty && eSum) = true
        · simp only [htr, if_true]
          refine ⟨le_refl _, ?_⟩
          simp only [List.length_cons, List.length_nil]
          omega
        · simpa [htr] using ⟨hcur, hacc⟩

/-- C9: for every input list and configuration, the reported token estimate
never exceeds the (clamped) token budget, and the number of injected
memories never exceeds `maxMemories`. -/
theorem claim9_budget_invariants (memories : List MemoryItem) (config : SmartInjectionConfig) :
    (buildMemoryContext memories config).estimatedTokens ≤ memoryBudget config ∧
    (buildMemoryContext memories config).injectedCount ≤ config.maxMemories := by
  unfold buildMemoryContext
  by_cases hempty : memories.length = 0
  · simp [hempty]
  · simp only [hempty, if_false]
    have hov : memoryOverhead ≤ memoryBudget config := by
      have := (memoryBudget_bounds config).1
      unfold memoryOverhead
      omega
    exact selectMemoriesGo_bounds (memoryBudget config) config.maxMemories
      config.enableSummarization (sortStable memoryLt memories) [] memoryOverhead hov
      (by simp)

theorem startsWithList_append_self (s t : Str) : startsWithList s (s ++ t) = true := by
  induction s with
  | nil => rfl
  | cons c cs ih => simp [startsWithList, ih]

theorem endsWithList_append_self (a suf : Str) : endsWithList suf (a ++ suf) = true := by
  unfold endsWithList
  rw [List.reverse_append]
  exact startsWithList_append_self suf.reverse a.reverse

/-- C6 (amended): when the highest-ranked memory alone overflows the budget
(and summarization is enabled with a positive `maxMemories`),
`buildMemoryContext` includes exactly one copy of it passed through
`truncateMemory(mem, budget − 70)`, reports `estimated_tokens = budget`,
and reports `truncated = false` for a single-memory input; the copy is cut
to character length `2·(budget − 70)` with a trailing ellipsis ONLY when
the original text is longer than `2·(budget − 70)` characters (token
overflow does not imply that: a CJK-heavy text can overflow the budget yet
stay below the character cap, in which case it is included verbatim). -/
theorem claim6_single_overflow (memories : List MemoryItem) (config : SmartInjectionConfig)
    (m : MemoryItem)
    (hsum : config.enableSummarization = true)
    (hmax : 1 ≤ config.maxMemories)
    (hhead : (sortStable memoryLt memories).head? = some m)
    (hover : memoryBudget config < memoryOverhead + (estimateTokens m.memory + 10)) :
    (buildMemoryContext memories config).selected =
      [truncateMemory m (memoryBudget config - memoryOverhead - 20)] ∧
    (buildMemoryContext memories config).estimatedTokens = memoryBudget config ∧
    (buildMemoryContext memories config).injectedCount = 1 ∧
    (memories.length = 1 → (buildMemoryContext memories config).truncated = false) ∧
    (2 * (memoryBudget config - 70) < m.memory.length →
      (truncateMemory m (memoryBudget config - memoryOverhead - 20)).memory.length =
        2 * (memoryBudget config - 70) ∧
      endsWithList ellipsis
        (truncateMemory m (memoryBudget config - memoryOverhead - 20)).memory = true) := by
  obtain ⟨tail, hsorted⟩ : ∃ tail, sortStable memoryLt memories = m :: tail := by
    cases hs : sortStable memoryLt memories with
    | nil => rw [hs] at hhead; exact absurd hhead (by simp)
    | cons a t =>
      rw [hs] at hhead
      simp only [List.head?_cons, Option.some.injEq] at hhead
      exact ⟨t, by rw [hhead]⟩
  have hlen : memories.length = tail.length + 1 := by
    have := length_sortStable memoryLt memories
    rw [hsorted] at this
    simp at this
    omega
  have hne : ¬ memories.length = 0 := by omega
  have hgo : selectMemoriesGo (memoryBudget config) config.maxMemories
      config.enableSummarization (m :: tail) [] memoryOverhead =
      ([truncateMemory m (memoryBudget config - memoryOverhead - 20)], memoryBudget config) := by
    unfold selectMemoriesGo
    have h1 : ¬ config.maxMemories ≤ List.length ([] : List MemoryItem) := by
      simp only [List.length_nil, Nat.le_zero]
      omega
    have h1' : ¬ config.maxMemories = 0 := by omega
    have h2 : ¬ memoryOverhead + (estimateTokens m.memory + 10) ≤ memoryBudget config := by omega
    simp [h1, h1', h2, hsum]
  have hres : buildMemoryContext memories config =
      { selected := [truncateMemory m (memoryBudget config - memoryOverhead - 20)],
        injectedCount := 1, totalMemories := memories.length,
        estimatedTokens := memoryBudget config,
        truncated := decide (1 < memories.length),
        summarized := [truncateMemory m (memoryBudget config - memoryOverhead - 20)].any
          (fun x => endsWithList ellipsis x.memory) } := by
    unfold buildMemoryContext
    simp only [hne, if_false, hsorted, hgo]
    rfl
  refine ⟨by rw [hres], by rw [hres], by rw [hres], ?_, ?_⟩
  · intro h1
    rw [hres]
    simp [h1]
  · intro hbig
    have hbudget := (memoryBudget_bounds config).1
    have hsub : memoryBudget config - memoryOverhead - 20 = memoryBudget config - 70 := by
      unfold memoryOverhead
      omega
    have hchars : (memoryBudget config - memoryOverhead - 20) * 2 = 2 * (memoryBudget config - 70) := by
      rw [hsub]
      exact Nat.mul_comm _ _
    have hnotle : ¬ m.memory.length ≤ (memoryBudget config - memoryOverhead - 20) * 2 := by
      rw [hchars]
      omega
    have htrunc : truncateMemory m (memoryBudget config - memoryOverhead - 20) =
        { m with memory :=
            m.memory.take ((memoryBudget config - memoryOverhead - 20) * 2 - 3) ++ ellipsis } := by
      unfold truncateMemory
      simp only [hnotle, if_false]
    have hell : ellipsis.length = 3 := by decide
    have hmo : memoryOverhead = 50 := rfl
    have hproj : (truncateMemory m (memoryBudget config - memoryOverhead - 20)).memory =
        m.memory.take ((memoryBudget config - memoryOverhead - 20) * 2 - 3) ++ ellipsis := by
      rw [htrunc]
    constructor
    · rw [hproj, List.length_append, List.length_take, hell]
      omega
    · rw [hproj]
      exact endsWithList_append_self _ _

def c6Config : SmartInjectionConfig := { maxContextTokens := some 1000 }

def c6Memory : MemoryItem := { id := "c6", memory := List.replicate 211 (Char.ofNat 20013) }

set_option maxRecDepth 20000 in
/-- C6 counterexample: with `maxContextTokens = 1000` the budget is 200; a
memory of 211 CJK characters estimates to 141 tokens, so it alone overflows
the budget (50 + 141 + 10 = 201 > 200), yet its 211 characters are below
the cap `2·(budget − 70) = 260`, so the included copy is NOT of length 260
and does NOT end with an ellipsis — the memory is included verbatim. -/
theorem claim6_counterexample :
    (buildMemoryContext [c6Memory] c6Config).selected = [c6Memory] ∧
    c6Memory.memory.length = 211 ∧
    2 * (memoryBudget c6Config - 70) = 260 ∧
    endsWithList ellipsis c6Memory.memory = false ∧
    (buildMemoryContext [c6Memory] c6Config).estimatedTokens = memoryBudget c6Config := by
  decide

def c6wMemory : MemoryItem := { id := "c6w", memory := List.replicate 564 'a' }

set_option maxRecDepth 40000 in
theorem claim6_witness :
    (buildMemoryContext [c6wMemory] c6Config).selected =
      [truncateMemory c6wMemory (memoryBudget c6Config - memoryOverhead - 20)] ∧
    (buildMemoryContext [c6wMemory] c6Config).estimatedTokens = memoryBudget c6Config ∧
    (truncateMemory c6wMemory (memoryBudget c6Config - memoryOverhead - 20)).memory.length =
      2 * (memoryBudget c6Config - 70) ∧
    endsWithList ellipsis
      (truncateMemory c6wMemory (memoryBudget c6Config - memoryOverhead - 20)).memory = true := by
  have h := claim6_single_overflow [c6wMemory] c6Config c6wMemory (by decide) (by decide)
    (by decide) (by decide)
  have hbig : 2 * (memoryBudget c6Config - 70) < c6wMemory.memory.length := by decide
  exact ⟨h.1, h.2.1, (h.2.2.2.2 hbig).1, (h.2.2.2.2 hbig).2⟩

/-- The search scope of the host-facing tools. -/
inductive Scope
  | session
  | longTerm
  | all
deriving DecidableEq

/-- The outcome of a tool body: either a value, or the error text payload
produced by the tool's outer `catch`. -/
inductive ToolResult (α : Type)
  | ok (value : α)
  | error (message : String)
deriving DecidableEq

def needLongTerm (scope : Scope) : Bool :=
  decide (scope = Scope.longTerm) || decide (scope = Scope.all)

def needSession (scope : Scope) (sessionSet : Bool) : Bool :=
  (decide (scope = Scope.session) || decide (scope = Scope.all)) && sessionSet

def needArchive (scope : Scope) (deep : Bool) : Bool :=
  deep && needLongTerm scope

/-- The `pushUnique` closure of `memory_search` / `memory_list`: skip items
with an empty id or an id already seen, otherwise record the id and push the
item.  Returns the extended `(seen, results)` pair. -/
def pushUniqueAll (seen : List String) (acc : List MemoryItem) :
    List MemoryItem → List String × List MemoryItem
  | [] => (seen, acc)
  | item :: rest =>
    if item.id = "" || seen.contains item.id then pushUniqueAll seen acc rest
    else pushUniqueAll (seen ++ [item.id]) (acc ++ [item]) rest

/-- The per-scope merge of `memory_search`: long-term, then session, then
archive, deduplicated by id with first occurrence winning. -/
def mergeResults (scope : Scope) (lt sess arch : List MemoryItem) : List MemoryItem :=
  match scope with
  | Scope.session => (pushUniqueAll [] [] sess).2
  | Scope.longTerm =>
    let r1 := pushUniqueAll [] [] lt
    (pushUniqueAll r1.1 r1.2 arch).2
  | Scope.all =>
    let r1 := pushUniqueAll [] [] lt
    let r2 := pushUniqueAll r1.1 r1.2 sess
    (pushUniqueAll r2.1 r2.2 arch).2

/-- A sub-search slot of the `Promise.all` in `memory_search`: when the
source is not needed the promise is `Promise.resolve([])`, otherwise it is
the given provider/archive search outcome. -/
def subResult (need : Bool) (r : ToolResult (List MemoryItem)) : ToolResult (List MemoryItem) :=
  if need then r else ToolResult.ok []

/-- The `memory_search` tool body (src/src/index.ts) on a cache miss, as a
function of the three sub-search outcomes.  The sub-searches run under a
single `Promise.all` whose rejection lands in the tool's outer `catch`:
there is no per-source error handling.  `Promise.all` surfaces the
temporally first rejection; which of several simultaneous errors wins does
not matter to any claim, so the model picks them in array order.
`ToolResult.ok []` stands for the "No relevant memories found" reply. -/
def memorySearchExecute (scope : Scope) (deep : Bool) (sessionSet : Bool)
    (longTermRes sessionRes archiveRes : ToolResult (List MemoryItem)) :
    ToolResult (List MemoryItem) :=
  match subResult (needLongTerm scope) longTermRes,
      subResult (needSession scope sessionSet) sessionRes,
      subResult (needArchive scope deep) archiveRes with
  | ToolResult.ok lt, ToolResult.ok sess, ToolResult.ok arch =>
    ToolResult.ok (mergeResults scope lt sess arch)
  | ToolResult.error e, _, _ => ToolResult.error e
  | _, ToolResult.error e, _ => ToolResult.error e
  | _, _, ToolResult.error e => ToolResult.error e

theorem pushUniqueAll_cons (seen : List String) (acc : List MemoryItem)
    (item : MemoryItem) (rest : List MemoryItem) :
    pushUniqueAll seen acc (item :: rest) =
      if item.id = "" || seen.contains item.id then pushUniqueAll seen acc rest
      else pushUniqueAll (seen ++ [item.id]) (acc ++ [item]) rest := rfl

theorem pushUniqueAll_invariant (l : List MemoryItem) :
    ∀ seen : List String, ∀ acc : List MemoryItem,
      acc.map (fun m => m.id) = seen → seen.Nodup →
      (pushUniqueAll seen acc l).2.map (fun m => m.id) = (pushUniqueAll seen acc l).1 ∧
      (pushUniqueAll seen acc l).1.Nodup ∧
      (∀ m ∈ (pushUniqueAll seen acc l).2, m ∈ acc ∨ m ∈ l) := by
  induction l with
  | nil =>
    intro seen acc hmap hnodup
    exact ⟨hmap, hnodup, fun m hm => Or.inl hm⟩
  | cons item rest ih =>
    intro seen acc hmap hnodup
    by_cases hskip : (decide (item.id = "") || seen.contains item.id) = true
    · have hred : pushUniqueAll seen acc (item :: rest) = pushUniqueAll seen acc rest := by
        rw [pushUniqueAll_cons, if_pos hskip]
      rw [hred]
      rcases ih seen acc hmap hnodup with ⟨h1, h2, h3⟩
      refine ⟨h1, h2, fun m hm => ?_⟩
      rcases h3 m hm with hacc | hrest
      · exact Or.inl hacc
      · exact Or.inr (List.mem_cons_of_mem item hrest)
    · have hred : pushUniqueAll seen acc (item :: rest) =
          pushUniqueAll (seen ++ [item.id]) (acc ++ [item]) rest := by
        rw [pushUniqueAll_cons, if_neg hskip]
      rw [hred]
      have hnotmem : ¬ item.id ∈ seen := by
        intro hmem
        apply hskip
        simp only [Bool.or_eq_true]
        exact Or.inr (List.elem_eq_true_of_mem hmem)
      rcases ih (seen ++ [item.id]) (acc ++ [item])
          (by rw [List.map_append, hmap]; rfl)
          (by
            rw [List.nodup_append]
            exact ⟨hnodup, List.nodup_singleton _, by simpa using hnotmem⟩)
        with ⟨h1, h2, h3⟩
      refine ⟨h1, h2, fun m hm => ?_⟩
      rcases h3 m hm with hacc | hrest
      · rcases List.mem_append.mp hacc with h | h
        · exact Or.inl h
        · exact Or.inr (by simp only [List.mem_singleton] at h; rw [h]; exact List.mem_cons_self _ _)
      · exact Or.inr (List.mem_cons_of_mem item hrest)

theorem mergeResults_nodup_and_sources (scope : Scope) (lt sess arch : List MemoryItem) :
    ((mergeResults scope lt sess arch).map (fun m => m.id)).Nodup ∧
    ∀ m ∈ mergeResults scope lt sess arch, m ∈ lt ∨ m ∈ sess ∨ m ∈ arch := by
  cases scope with
  | session =>
    rcases pushUniqueAll_invariant sess [] [] rfl List.nodup_nil with ⟨h1, h2, h3⟩
    refine ⟨by rw [mergeResults, h1]; exact h2, fun m hm => ?_⟩
    rcases h3 m hm with h | h
    · exact absurd h (List.not_mem_nil m)
    · exact Or.inr (Or.inl h)
  | longTerm =>
    rcases pushUniqueAll_invariant lt [] [] rfl List.nodup_nil with ⟨h1, h2, h3⟩
    rcases pushUniqueAll_invariant arch (pushUniqueAll [] [] lt).1 (pushUniqueAll [] [] lt).2
        h1 h2 with ⟨g1, g2, g3⟩
    refine ⟨by rw [mergeResults]; rw [g1]; exact g2, fun m hm => ?_⟩
    rcases g3 m hm with h | h
    · rcases h3 m h with h' | h'
      · exact absurd h' (List.not_mem_nil m)
      · exact Or.inl h'
    · exact Or.inr (Or.inr h)
  | all =>
    rcases pushUniqueAll_invariant lt [] [] rfl List.nodup_nil with ⟨h1, h2, h3⟩
    rcases pushUniqueAll_invariant sess (pushUniqueAll [] [] lt).1 (pushUniqueAll [] [] lt).2
        h1 h2 with ⟨g1, g2, g3⟩
    rcases pushUniqueAll_invariant arch
        (pushUniqueAll (pushUniqueAll [] [] lt).1 (pushUniqueAll [] [] lt).2 sess).1
        (pushUniqueAll (pushUniqueAll [] [] lt).1 (pushUniqueAll [] [] lt).2 sess).2
        g1 g2 with ⟨k1, k2, k3⟩
    refine ⟨by rw [mergeResults]; rw [k1]; exact k2, fun m hm => ?_⟩
    rcases k3 m hm with h | h
    · rcases g3 m h with h' | h'
      · rcases h3 m h' with h'' | h''
        · exact absurd h'' (List.not_mem_nil m)
        · exact Or.inl h''
      · exact Or.inr (Or.inl h')
    · exact Or.inr (Or.inr h)

/-- C3 (amended): the three sub-searches of `memory_search` run under one
`Promise.all` guarded only by the tool's outer `catch`, so an error in ANY
needed sub-search aborts the whole tool call and surfaces as an error
payload — no partial merge is returned.  Only when every needed sub-search
succeeds are the results merged in scope order and deduplicated by id
(first occurrence wins, empty ids dropped). -/
theorem claim3_search_merge (scope : Scope) (deep : Bool) (sessionSet : Bool)
    (longTermRes sessionRes archiveRes : ToolResult (List MemoryItem)) :
    ((∃ e, subResult (needLongTerm scope) longTermRes = ToolResult.error e ∨
        subResult (needSession scope sessionSet) sessionRes = ToolResult.error e ∨
        subResult (needArchive scope deep) archiveRes = ToolResult.error e) →
      ∃ e2, memorySearchExecute scope deep sessionSet longTermRes sessionRes archiveRes =
        ToolResult.error e2) ∧
    (∀ lt sess arch,
      subResult (needLongTerm scope) longTermRes = ToolResult.ok lt →
      subResult (needSession scope sessionSet) sessionRes = ToolResult.ok sess →
      subResult (needArchive scope deep) archiveRes = ToolResult.ok arch →
      memorySearchExecute scope deep sessionSet longTermRes sessionRes archiveRes =
        ToolResult.ok (mergeResults scope lt sess arch) ∧
      ((mergeResults scope lt sess arch).map (fun m => m.id)).Nodup ∧
      ∀ m ∈ mergeResults scope lt sess arch, m ∈ lt ∨ m ∈ sess ∨ m ∈ arch) := by
  constructor
  · intro ⟨e, he⟩
    unfold memorySearchExecute
    cases h1 : subResult (needLongTerm scope) longTermRes with
    | error e1 =>
      refine ⟨e1, ?_⟩
      cases subResult (needSession scope sessionSet) sessionRes <;>
        cases subResult (needArchive scope deep) archiveRes <;> rfl
    | ok lt =>
      cases h2 : subResult (needSession scope sessionSet) sessionRes with
      | error e2 =>
        refine ⟨e2, ?_⟩
        cases subResult (needArchive scope deep) archiveRes <;> rfl
      | ok sess =>
        cases h3 : subResult (needArchive scope deep) archiveRes with
        | error e3 => exact ⟨e3, rfl⟩
        | ok arch =>
          rw [h1, h2, h3] at he
          rcases he with h | h | h <;> exact absurd h (by simp)
  · intro lt sess arch h1 h2 h3
    refine ⟨?_, mergeResults_nodup_and_sources scope lt sess arch⟩
    unfold memorySearchExecute
    rw [h1, h2, h3]

def c3Memory : MemoryItem := { id := "m1", memory := "User uses Rust daily".data }

def c3Err : String := "StoreError: session search failed"

/-- C3 counterexample: with `scope=all`, a session id set and `deep=false`,
the long-term sub-search succeeds with one memory but the session
sub-search rejects; the claim requires the long-term result to still be
returned, while the code returns an error payload for the whole call. -/
theorem claim3_counterexample :
    memorySearchExecute Scope.all false true
      (ToolResult.ok [c3Memory]) (ToolResult.error c3Err) (ToolResult.ok []) =
      ToolResult.error c3Err ∧
    (ToolResult.error c3Err : ToolResult (List MemoryItem)) ≠ ToolResult.ok [c3Memory] := by
  decide

theorem claim3_witness :
    memorySearchExecute Scope.all false true
      (ToolResult.ok [c3Memory]) (ToolResult.ok []) (ToolResult.ok []) =
      ToolResult.ok [c3Memory] ∧
    ∃ e2, memorySearchExecute Scope.all false true
      (ToolResult.ok [c3Memory]) (ToolResult.error c3Err) (ToolResult.ok []) =
      ToolResult.error e2 := by
  constructor
  · have h := (claim3_search_merge Scope.all false true
      (ToolResult.ok [c3Memory]) (ToolResult.ok []) (ToolResult.ok [])).2
      [c3Memory] [] [] (by decide) (by decide) (by decide)
    rw [h.1]
    decide
  · exact (claim3_search_merge Scope.all false true
      (ToolResult.ok [c3Memory]) (ToolResult.error c3Err) (ToolResult.ok [])).1
      ⟨c3Err, Or.inr (Or.inl (by decide))⟩

/-- The parameters of the `memory_forget` tool.  `limit` is a JS number;
`none` stands for an absent (or non-numeric, `NaN`) value, which — like the
falsy `0` — falls back to the default 8 via `Number(params.limit) || 8`. -/
structure ForgetParams where
  query : Option Str := none
  memoryId : Option String := none
  limit : Option Int := none
  deleteAll : Option Bool := none

/-- `Math.max(1, Math.min(50, Number(params.limit) || 8))`. -/
def effectiveForgetLimit (limit : Option Int) : Int :=
  max 1 (min 50 (match limit with
    | none => 8
    | some v => if v = 0 then 8 else v))

/-- The observable outcome of the `memory_forget` tool body.
`errorPayload` is the outer-catch error text produced when a single
(non-bulk) `provider.delete` rejects. -/
inductive ForgetOutcome
  | deletedById (id : String)
  | noMatch
  | bulkDeleted (deleted : Nat) (attempted : Nat) (failedIds : List String)
      (candidates : List MemoryItem)
  | deletedSingle (id : String)
  | disambiguation (candidates : List MemoryItem)
  | missingParams
  | errorPayload
deriving DecidableEq

/-- The dedup-by-id pass of `memory_forget` over
`[...longTermResults, ...sessionResults]`. -/
def forgetDedup (items : List MemoryItem) : List MemoryItem :=
  (pushUniqueAll [] [] items).2

/-- The merged, deduplicated recall results of `memory_forget`, as a
function of the two provider sub-searches (each given the clamped
limit). -/
def forgetResults (params : ForgetParams) (scope : Scope) (sessionSet : Bool)
    (longTermSearch sessionSearch : Int → List MemoryItem) : List MemoryItem :=
  let lim := effectiveForgetLimit params.limit
  forgetDedup ((if needLongTerm scope then longTermSearch lim else []) ++
    (if needSession scope sessionSet then sessionSearch lim else []))

/-- The candidate restriction of `memory_forget`: results whose
trimmed, lowercased text equals the trimmed, lowercased query, falling back
to all results when there is none. -/
def forgetCandidates (q : Str) (results : List MemoryItem) : List MemoryItem :=
  let normalizedQuery := toLowerStr (trimStr q)
  let exactMatches := results.filter
    (fun item => decide (toLowerStr (trimStr item.memory) = normalizedQuery))
  if exactMatches.isEmpty then results else exactMatches

/-- Modelled from the spec: the candidate restriction exactly as claim C8
words it — an exact case-insensitive text match of the query, with NO
whitespace trimming (the source additionally trims both sides). -/
def specForgetCandidates (q : Str) (results : List MemoryItem) : List MemoryItem :=
  let exact := results.filter (fun item => decide (toLowerStr item.memory = toLowerStr q))
  if exact.isEmpty then results else exact

/-- The `deleteAll` loop: count successful deletes, collect failing ids. -/
def forgetBulkLoop (deleteOk : String → Bool) :
    List MemoryItem → Nat → List String → Nat × List String
  | [], deleted, failed => (deleted, failed)
  | item :: rest, deleted, failed =>
    if deleteOk item.id then forgetBulkLoop deleteOk rest (deleted + 1) failed
    else forgetBulkLoop deleteOk rest deleted (failed ++ [item.id])

/-- The `memory_forget` tool body (src/src/index.ts), returning the
observable outcome together with the list of ids `provider.delete` was
invoked on.  `deleteOk` injects per-id success/failure of the hot-store
delete. -/
def memoryForgetExecute (params : ForgetParams) (scope : Scope) (sessionSet : Bool)
    (longTermSearch sessionSearch : Int → List MemoryItem) (deleteOk : String → Bool) :
    ForgetOutcome × List String :=
  match params.memoryId with
  | some mid =>
    ((if deleteOk mid then ForgetOutcome.deletedById mid else ForgetOutcome.errorPayload), [mid])
  | none =>
    match params.query with
    | none => (ForgetOutcome.missingParams, [])
    | some q =>
      let results := forgetResults params scope sessionSet longTermSearch sessionSearch
      if results.isEmpty then (ForgetOutcome.noMatch, [])
      else
        let candidates := forgetCandidates q results
        match params.deleteAll with
        | some true =>
          let r := forgetBulkLoop deleteOk candidates 0 []
          (ForgetOutcome.bulkDeleted r.1 candidates.length r.2 candidates,
            candidates.map (fun c => c.id))
        | _ =>
          match candidates with
          | [c] =>
            ((if deleteOk c.id then ForgetOutcome.deletedSingle c.id else ForgetOutcome.errorPayload),
              [c.id])
          | _ => (ForgetOutcome.disambiguation candidates, [])

theorem forgetBulkLoop_count (deleteOk : String → Bool) (l : List MemoryItem) :
    ∀ d : Nat, ∀ f : List String,
      (forgetBulkLoop deleteOk l d f).1 + (forgetBulkLoop deleteOk l d f).2.length =
        d + f.length + l.length := by
  induction l with
  | nil => intro d f; simp [forgetBulkLoop]
  | cons item rest ih =>
    intro d f
    unfold forgetBulkLoop
    by_cases h : deleteOk item.id = true
    · simp only [h, if_true]
      rw [ih (d + 1) f]
      simp only [List.length_cons]
      omega
    · simp only [h, Bool.false_eq_true, if_false]
      rw [ih d (f ++ [item.id])]
      simp only [List.length_cons, List.length_append, List.length_nil]
      omega

/-- C8 (amended): with a query and no id, `memory_forget` searches with the
limit clamped to `[1,50]` (absent/zero falling back to 8 first); candidates
are the results whose TRIMMED lowercased text equals the trimmed lowercased
query, or all results when there is no such match; `deleteAll=true` deletes
every candidate reporting success/failure counts; exactly one candidate is
deleted directly; otherwise the candidate list is returned for
disambiguation and no delete is issued. -/
theorem claim8_forget_policy (params : ForgetParams) (scope : Scope) (sessionSet : Bool)
    (longTermSearch sessionSearch : Int → List MemoryItem) (deleteOk : String → Bool) (q : Str)
    (hid : params.memoryId = none) (hq : params.query = some q) :
    (1 ≤ effectiveForgetLimit params.limit ∧ effectiveForgetLimit params.limit ≤ 50) ∧
    (forgetResults params scope sessionSet longTermSearch sessionSearch = [] →
      memoryForgetExecute params scope sessionSet longTermSearch sessionSearch deleteOk =
        (ForgetOutcome.noMatch, [])) ∧
    (∀ results, forgetResults params scope sessionSet longTermSearch sessionSearch = results →
      results ≠ [] → params.deleteAll = some true →
      memoryForgetExecute params scope sessionSet longTermSearch sessionSearch deleteOk =
        (ForgetOutcome.bulkDeleted (forgetBulkLoop deleteOk (forgetCandidates q results) 0 []).1
          (forgetCandidates q results).length
          (forgetBulkLoop deleteOk (forgetCandidates q results) 0 []).2
          (forgetCandidates q results),
          (forgetCandidates q results).map (fun c => c.id)) ∧
      (forgetBulkLoop deleteOk (forgetCandidates q results) 0 []).1 +
        (forgetBulkLoop deleteOk (forgetCandidates q results) 0 []).2.length =
        (forgetCandidates q results).length) ∧
    (∀ results c, forgetResults params scope sessionSet longTermSearch sessionSearch = results →
      results ≠ [] → params.deleteAll ≠ some true → forgetCandidates q results = [c] →
      memoryForgetExecute params scope sessionSet longTermSearch sessionSearch deleteOk =
        ((if deleteOk c.id then ForgetOutcome.deletedSingle c.id else ForgetOutcome.errorPayload),
          [c.id])) ∧
    (∀ results, forgetResults params scope sessionSet longTermSearch sessionSearch = results →
      results ≠ [] → params.deleteAll ≠ some true → 2 ≤ (forgetCandidates q results).length →
      memoryForgetExecute params scope sessionSet longTermSearch sessionSearch deleteOk =
        (ForgetOutcome.disambiguation (forgetCandidates q results), [])) := by
  have hexec : memoryForgetExecute params scope sessionSet longTermSearch sessionSearch deleteOk =
      (let results := forgetResults params scope sessionSet longTermSearch sessionSearch
       if results.isEmpty then (ForgetOutcome.noMatch, [])
       else
        let candidates := forgetCandidates q results
        match params.deleteAll with
        | some true =>
          let r := forgetBulkLoop deleteOk candidates 0 []
          (ForgetOutcome.bulkDeleted r.1 candidates.length r.2 candidates,
            candidates.map (fun c => c.id))
        | _ =>
          match candidates with
          | [c] =>
            ((if deleteOk c.id then ForgetOutcome.deletedSingle c.id
              else ForgetOutcome.errorPayload), [c.id])
          | _ => (ForgetOutcome.disambiguation candidates, [])) := by
    unfold memoryForgetExecute
    rw [hid, hq]
  refine ⟨⟨le_max_left _ _, max_le (by norm_num) (min_le_left _ _)⟩, ?_, ?_, ?_, ?_⟩
  · intro hres
    rw [hexec]
    simp only [hres]
    rfl
  · intro results hres hne hall
    rw [hexec]
    simp only [hres, hall]
    have : results.isEmpty = false := by
      cases results with
      | nil => exact absurd rfl hne
      | cons a t => rfl
    rw [this]
    exact ⟨rfl, by
      have := forgetBulkLoop_count deleteOk (forgetCandidates q results) 0 []
      simpa using this⟩
  · intro results c hres hne hnall hcand
    rw [hexec]
    simp only [hres, hcand]
    have hie : results.isEmpty = false := by
      cases results with
      | nil => exact absurd rfl hne
      | cons a t => rfl
    rw [hie]
    cases hall : params.deleteAll with
    | none => rfl
    | some b =>
      cases b with
      | false => rfl
      | true => exact absurd hall hnall
  · intro results hres hne hnall hlen
    rw [hexec]
    simp only [hres]
    have hie : results.isEmpty = false := by
      cases results with
      | nil => exact absurd rfl hne
      | cons a t => rfl
    rw [hie]
    obtain ⟨c1, c2, rest, hcand⟩ : ∃ c1 c2 rest, forgetCandidates q results = c1 :: c2 :: rest := by
      cases hc : forgetCandidates q results with
      | nil => rw [hc] at hlen; simp at hlen
      | cons a t =>
        cases t with
        | nil => rw [hc] at hlen; simp at hlen
        | cons b u => exact ⟨a, b, u, rfl⟩
    rw [hcand]
    cases hall : params.deleteAll with
    | none => rfl
    | some b =>
      cases b with
      | false => rfl
      | true => exact absurd hall hnall

def c8m1 : MemoryItem := { id := "f1", memory := " tea ".data }

def c8m2 : MemoryItem := { id := "f2", memory := "green tea".data }

def c8Params : ForgetParams := { query := some ("tea".data) }

/-- C8 counterexample: the recall for query `tea` returns a memory whose
text is `" tea "` (an exact match only AFTER trimming) and another memory
`"green tea"`.  Under the claim's untrimmed exact-match rule neither is an
exact match, so both are candidates and the tool must return them for
disambiguation without deleting; the source trims, finds the single exact
match and DELETES it. -/
theorem claim8_counterexample :
    memoryForgetExecute c8Params Scope.all false (fun _ => [c8m1, c8m2]) (fun _ => [])
      (fun _ => true) = (ForgetOutcome.deletedSingle ("f1"), [("f1" : String)]) ∧
    specForgetCandidates ("tea".data)
      (forgetResults c8Params Scope.all false (fun _ => [c8m1, c8m2]) (fun _ => [])) =
      [c8m1, c8m2] := by
  decide

theorem claim8_witness :
    memoryForgetExecute c8Params Scope.all false (fun _ => [c8m1, c8m2]) (fun _ => [])
      (fun _ => true) =
      ((if (fun (_ : String) => true) c8m1.id then ForgetOutcome.deletedSingle c8m1.id
        else ForgetOutcome.errorPayload), [c8m1.id]) ∧
    1 ≤ effectiveForgetLimit c8Params.limit ∧ effectiveForgetLimit c8Params.limit ≤ 50 := by
  have h := claim8_forget_policy c8Params Scope.all false (fun _ => [c8m1, c8m2]) (fun _ => [])
    (fun _ => true) ("tea".data) rfl rfl
  refine ⟨?_, h.1.1, h.1.2⟩
  exact h.2.2.2.1
    (forgetResults c8Params Scope.all false (fun _ => [c8m1, c8m2]) (fun _ => [])) c8m1
    rfl (by decide) (by decide) (by decide)

/-- Modelled from the spec (§4.C): the hot store (`mem0ai` SDK, not under
src/) is a keyed store whose `getAll({user_id})` is a filtered scan by
`user_id` and whose `delete(id)` removes the record with that id. -/
def hotGetAll (hot : List MemoryItem) (userId : String) : List MemoryItem :=
  hot.filter (fun m => decide (m.userId = some userId))

/-- Modelled from the spec (§4.C): `HotStore.delete(id)`. -/
def hotDelete (hot : List MemoryItem) (memId : String) : List MemoryItem :=
  hot.filter (fun m => decide (¬ m.id = memId))

/-- The comparator of `memories.sort` in `prune`: `created_at`
ascending. -/
def createdLt (a b : MemoryItem) : Bool :=
  decide (memCreatedMs a < memCreatedMs b)

/-- `archiveMemories(memories, baseDir, logger)` (src/unnamed/part_007):
appends the batch to `mem0-archive.jsonl`; an `appendFileSync` failure is
caught and only logged — the function returns normally either way.
`appendOk` injects the outcome of the filesystem write. -/
def archiveMemoriesStep (toDelete archive : List MemoryItem) (appendOk : Bool) :
    List MemoryItem :=
  if toDelete.isEmpty then archive
  else if appendOk then archive ++ toDelete else archive

/-- The sequential delete loop of `prune`: per-item failures are caught and
ignored, successes are counted. -/
def pruneDeleteLoop (deleteOk : String → Bool) :
    List MemoryItem → List MemoryItem → Nat → List MemoryItem × Nat
  | [], hot, deleted => (hot, deleted)
  | mem :: rest, hot, deleted =>
    if deleteOk mem.id then pruneDeleteLoop deleteOk rest (hotDelete hot mem.id) (deleted + 1)
    else pruneDeleteLoop deleteOk rest hot deleted

/-- The state after `prune`: the hot store, the archive file contents, and
the returned deletion count. -/
structure PruneResult where
  hot : List MemoryItem
  archive : List MemoryItem
  deleted : Nat
deriving DecidableEq

/-- `OSSProvider.prune(userId, maxCount)` (src/unnamed/part_007; the
`PlatformProvider` variant is line-for-line identical): list the user's
memories, return 0 if within bounds, sort oldest-first, take the overflow
slice, call `archiveMemories` (whose failure is logged, not propagated),
then delete the slice from the hot store one by one. -/
def prune (hot archive : List MemoryItem) (userId : String) (maxCount : Nat)
    (appendOk : Bool) (deleteOk : String → Bool) : PruneResult :=
  let memories := hotGetAll hot userId
  if memories.length ≤ maxCount then { hot := hot, archive := archive, deleted := 0 }
  else
    let sorted := sortStable createdLt memories
    let toDelete := sorted.take (memories.length - maxCount)
    let archive2 := archiveMemoriesStep toDelete archive appendOk
    let r := pruneDeleteLoop deleteOk toDelete hot 0
    { hot := r.1, archive := archive2, deleted := r.2 }

theorem pruneDeleteLoop_all_ok (deleteOk : String → Bool)
    (hall : ∀ id : String, deleteOk id = true) (l : List MemoryItem) :
    ∀ hot : List MemoryItem, ∀ d : Nat,
      (pruneDeleteLoop deleteOk l hot d).2 = d + l.length ∧
      (pruneDeleteLoop deleteOk l hot d).1 =
        hot.filter (fun m => decide (¬ m.id ∈ l.map (fun x => x.id))) := by
  induction l with
  | nil =>
    intro hot d
    refine ⟨rfl, ?_⟩
    simp [pruneDeleteLoop]
  | cons mem rest ih =>
    intro hot d
    have hred : pruneDeleteLoop deleteOk (mem :: rest) hot d =
        pruneDeleteLoop deleteOk rest (hotDelete hot mem.id) (d + 1) := by
      have hr : pruneDeleteLoop deleteOk (mem :: rest) hot d =
          if deleteOk mem.id then pruneDeleteLoop deleteOk rest (hotDelete hot mem.id) (d + 1)
          else pruneDeleteLoop deleteOk rest hot d := rfl
      rw [hr, hall mem.id]
      simp
    rw [hred]
    rcases ih (hotDelete hot mem.id) (d + 1) with ⟨h1, h2⟩
    constructor
    · rw [h1]; simp only [List.length_cons]; omega
    · rw [h2]
      unfold hotDelete
      rw [List.filter_filter]
      apply List.filter_congr
      intro m _
      by_cases h1 : m.id = mem.id <;> by_cases h2 : m.id ∈ rest.map (fun x => x.id) <;>
        simp [h1, h2]

/-- C1 (amended): when the archive append fails during `prune`, the
failure is caught inside `archiveMemories` and only logged; `prune`
proceeds to delete the overflow from the hot store regardless.  With
`appendOk = false` the archive is unchanged, yet the oldest
`count − maxCount` memories of the user are still deleted (here stated
with all hot-store deletes succeeding) and their number is returned. -/
theorem claim1_prune_archive_failure (hot archive : List MemoryItem) (userId : String)
    (maxCount : Nat) (deleteOk : String → Bool)
    (hover : maxCount < (hotGetAll hot userId).length)
    (hall : ∀ id : String, deleteOk id = true) :
    (prune hot archive userId maxCount false deleteOk).archive = archive ∧
    (prune hot archive userId maxCount false deleteOk).deleted =
      (hotGetAll hot userId).length - maxCount ∧
    (prune hot archive userId maxCount false deleteOk).hot =
      hot.filter (fun m => decide (¬ m.id ∈
        ((sortStable createdLt (hotGetAll hot userId)).take
          ((hotGetAll hot userId).length - maxCount)).map (fun x => x.id))) := by
  have hnotle : ¬ (hotGetAll hot userId).length ≤ maxCount := by omega
  have hres : prune hot archive userId maxCount false deleteOk =
      { hot := (pruneDeleteLoop deleteOk
          ((sortStable createdLt (hotGetAll hot userId)).take
            ((hotGetAll hot userId).length - maxCount)) hot 0).1,
        archive := archiveMemoriesStep
          ((sortStable createdLt (hotGetAll hot userId)).take
            ((hotGetAll hot userId).length - maxCount)) archive false,
        deleted := (pruneDeleteLoop deleteOk
          ((sortStable createdLt (hotGetAll hot userId)).take
            ((hotGetAll hot userId).length - maxCount)) hot 0).2 } := by
    unfold prune
    simp only [hnotle, if_false]
  rcases pruneDeleteLoop_all_ok deleteOk hall
      ((sortStable createdLt (hotGetAll hot userId)).take
        ((hotGetAll hot userId).length - maxCount)) hot 0 with ⟨hcount, hfilter⟩
  refine ⟨?_, ?_, ?_⟩
  · rw [hres]
    unfold archiveMemoriesStep
    split_ifs with h1 h2
    · rfl
    · exact absurd h2 (by simp)
    · rfl
  · rw [hres]
    simp only
    rw [hcount]
    rw [List.length_take, length_sortStable]
    omega
  · rw [hres]
    simp only
    exact hfilter

def c1User : String := "u"

def c1m1 : MemoryItem :=
  { id := "p1", memory := "old memory".data, userId := some c1User, createdAt := some 0 }

def c1m2 : MemoryItem :=
  { id := "p2", memory := "new memory".data, userId := some c1User, createdAt := some 1 }

/-- C1 counterexample: two memories of user `u`, `maxCount = 1`, the
archive append forced to fail.  The claim requires the hot store to keep
both memories; the code deletes the older one anyway (and the archive gains
nothing). -/
theorem claim1_counterexample :
    c1m1 ∈ [c1m1, c1m2] ∧
    (prune [c1m1, c1m2] [] c1User 1 false (fun _ => true)).hot = [c1m2] ∧
    ¬ c1m1 ∈ (prune [c1m1, c1m2] [] c1User 1 false (fun _ => true)).hot ∧
    (prune [c1m1, c1m2] [] c1User 1 false (fun _ => true)).archive = [] := by
  decide

theorem claim1_witness :
    (prune [c1m1, c1m2] [] c1User 1 false (fun _ => true)).archive = [] ∧
    (prune [c1m1, c1m2] [] c1User 1 false (fun _ => true)).deleted = 1 := by
  have h := claim1_prune_archive_failure [c1m1, c1m2] [] c1User 1 (fun _ => true)
    (by decide) (fun _ => rfl)
  refine ⟨h.1, ?_⟩
  rw [h.2.1]
  decide

/-- `PendingAction` (src/types.ts): `deliveryAttempts` is optional in the
source and read through `|| 0`, so it is modelled as a `Nat` defaulting to
0.  Timestamps are `Date.now()` epoch milliseconds. -/
structure PendingAction where
  id : String
  message : String
  createdAt : Int
  triggerAt : Int
  fired : Bool
  deliveryAttempts : Nat := 0
deriving DecidableEq

/-- `ACTION_TTL_MS = 7 * 24 * 60 * 60 * 1000`. -/
def actionTtlMs : Int := 7 * 24 * 60 * 60 * 1000

/-- Whether `checkPendingActions` fires an action at `now`. -/
def actionDue (now : Int) (a : PendingAction) : Bool :=
  (!a.fired) && decide (a.triggerAt ≤ now)

/-- `ReflectionEngine.pruneActions` (src/unnamed/part_006): drop every
fired action and every action older than the TTL. -/
def pruneActions (now : Int) (actions : List PendingAction) : List PendingAction :=
  actions.filter (fun a => (!a.fired) && decide (now - a.createdAt < actionTtlMs))

/-- The scan-and-mark loop of `checkPendingActions`: fire the first due
action in insertion order (mutating it in place), return it with the
updated list. -/
def fireFirst (now : Int) : List PendingAction → Option PendingAction × List PendingAction
  | [] => (none, [])
  | a :: rest =>
    if actionDue now a then
      (some { a with fired := true }, { a with fired := true } :: rest)
    else
      let r := fireFirst now rest
      (r.1, a :: r.2)

/-- `ReflectionEngine.checkPendingActions` (`poll`): prune, then fire the
first due action. -/
def checkPendingActions (now : Int) (actions : List PendingAction) :
    Option PendingAction × List PendingAction :=
  fireFirst now (pruneActions now actions)

/-- `ReflectionEngine.markActionFailed`: re-arm the first action with the
given id (`fired = false`, `deliveryAttempts + 1`); no-op when absent. -/
def markActionFailed (actionId : String) : List PendingAction → List PendingAction
  | [] => []
  | a :: rest =>
    if a.id = actionId then
      { a with fired := false, deliveryAttempts := a.deliveryAttempts + 1 } :: rest
    else a :: markActionFailed actionId rest

/-- The action record built by the UnifiedLLM-variant `reflect`
(src/unnamed/part_006, second revision): `delay_minutes` is clamped with
`Math.max(0, ·)` and absent/non-numeric values fall back to 0.  `rand` is
the `Math.random().toString(36).slice(2, 8)` suffix.  Delays are modelled
as integers; the clamp algebra is identical for fractional values. -/
def reflectActionUnified (now : Int) (rand : String) (message : String)
    (delayMinutes : Option Int) : PendingAction :=
  let delay : Int := match delayMinutes with
    | some d => max 0 d
    | none => 0
  { id := "action_" ++ toString now ++ "_" ++ rand, message := message,
    createdAt := now, triggerAt := now + delay * 60 * 1000, fired := false,
    deliveryAttempts := 0 }

/-- The action record built by the fetch-variant `reflect`
(src/unnamed/part_006, first revision): `(result.delay_minutes || 0)` has
NO clamp, so a negative delay is used as-is (`0` is falsy and also yields
0). -/
def reflectActionFetch (now : Int) (rand : String) (message : String)
    (delayMinutes : Option Int) : PendingAction :=
  let delay : Int := match delayMinutes with
    | some d => if d = 0 then 0 else d
    | none => 0
  { id := "action_" ++ toString now ++ "_" ++ rand, message := message,
    createdAt := now, triggerAt := now + delay * 60 * 1000, fired := false,
    deliveryAttempts := 0 }

/-- C7 (amended): the UnifiedLLM-variant `reflect` satisfies
`trigger_at = created_at + max(0, delay_minutes)·60000` (absent delays
count as 0), hence `trigger_at ≥ created_at`; the fetch-variant computes
`trigger_at = created_at + delay_minutes·60000` WITHOUT the clamp, so its
actions violate `trigger_at ≥ created_at` for negative delays. -/
theorem claim7_trigger_at (now : Int) (rand message : String) (d : Option Int) :
    (reflectActionUnified now rand message d).createdAt = now ∧
    (reflectActionUnified now rand message d).triggerAt =
      now + (match d with | some x => max 0 x | none => 0) * 60 * 1000 ∧
    (reflectActionUnified now rand message d).createdAt ≤
      (reflectActionUnified now rand message d).triggerAt ∧
    (reflectActionFetch now rand message d).triggerAt =
      now + (match d with | some x => x | none => 0) * 60 * 1000 := by
  refine ⟨rfl, rfl, ?_, ?_⟩
  · show now ≤ now + (match d with | some x => max 0 x | none => 0) * 60 * 1000
    have hnn : 0 ≤ (match d with | some x => max 0 x | none => 0) := by
      cases d with
      | none => exact le_refl 0
      | some x => exact le_max_left 0 x
    have : 0 ≤ (match d with | some x => max 0 x | none => 0) * 60 * 1000 := by positivity
    omega
  · cases d with
    | none => rfl
    | some x =>
      by_cases hx : x = 0
      · show now + (if x = 0 then 0 else x) * 60 * 1000 = now + x * 60 * 1000
        rw [if_pos hx, hx]
      · show now + (if x = 0 then 0 else x) * 60 * 1000 = now + x * 60 * 1000
        rw [if_neg hx]

def c7Rand : String := "abc123"

def c7Message : String := "Ping me tomorrow"

/-- C7 counterexample: a fetch-variant reflection with
`delay_minutes = −1` yields `trigger_at = created_at − 60000`, violating
both the claimed formula (`created_at + max(0,−1)·60000 = created_at`)
and the invariant `trigger_at ≥ created_at`. -/
theorem claim7_counterexample :
    (reflectActionFetch 1000000 c7Rand c7Message (some (-1))).triggerAt <
      (reflectActionFetch 1000000 c7Rand c7Message (some (-1))).createdAt ∧
    (reflectActionFetch 1000000 c7Rand c7Message (some (-1))).triggerAt ≠
      (reflectActionFetch 1000000 c7Rand c7Message (some (-1))).createdAt +
        (max 0 (-1 : Int)) * 60 * 1000 := by
  decide

theorem fireFirst_cons (now : Int) (x : PendingAction) (rest : List PendingAction) :
    fireFirst now (x :: rest) =
      if actionDue now x then
        (some { x with fired := true }, { x with fired := true } :: rest)
      else ((fireFirst now rest).1, x :: (fireFirst now rest).2) := rfl

theorem markActionFailed_cons (targetId : String) (x : PendingAction)
    (rest : List PendingAction) :
    markActionFailed targetId (x :: rest) =
      if x.id = targetId then
        { x with fired := false, deliveryAttempts := x.deliveryAttempts + 1 } :: rest
      else x :: markActionFailed targetId rest := rfl

theorem fireFirst_some (now : Int) :
    ∀ l : List PendingAction, ∀ a : PendingAction, (fireFirst now l).1 = some a →
      ∃ p orig q, l = p ++ orig :: q ∧ a = { orig with fired := true } ∧
        (fireFirst now l).2 = p ++ { orig with fired := true } :: q ∧
        (∀ b ∈ p, actionDue now b = false) ∧ actionDue now orig = true := by
  intro l
  induction l with
  | nil => intro a h; exact absurd h (by simp [fireFirst])
  | cons x rest ih =>
    intro a h
    by_cases hd : actionDue now x = true
    · rw [fireFirst_cons, if_pos hd] at h ⊢
      simp only [Option.some.injEq] at h
      refine ⟨[], x, rest, by simp, h.symm, by simp, by simp, hd⟩
    · rw [fireFirst_cons, if_neg hd] at h ⊢
      rcases ih a h with ⟨p, orig, q, hdec, ha, hsnd, hskip, hdue⟩
      refine ⟨x :: p, orig, q, by rw [List.cons_append, hdec], ha, ?_, ?_, hdue⟩
      · simp only [List.cons_append]
        rw [hsnd]
      · intro b hb
        rcases List.mem_cons.mp hb with hbx | hbp
        · rw [hbx]
          exact Bool.eq_false_iff.mpr hd
        · exact hskip b hbp

theorem fireFirst_skip (now : Int) (p : List PendingAction)
    (hskip : ∀ b ∈ p, actionDue now b = false) (rest : List PendingAction) :
    fireFirst now (p ++ rest) = ((fireFirst now rest).1, p ++ (fireFirst now rest).2) := by
  induction p with
  | nil => simp
  | cons x xs ih =>
    have hx : actionDue now x = false := hskip x (List.mem_cons_self x xs)
    rw [List.cons_append, fireFirst_cons, if_neg (by simp [hx])]
    rw [ih (fun b hb => hskip b (List.mem_cons_of_mem x hb))]
    simp

theorem markActionFailed_skip (targetId : String) (p : List PendingAction)
    (hnot : ∀ b ∈ p, ¬ b.id = targetId) (rest : List PendingAction) :
    markActionFailed targetId (p ++ rest) = p ++ markActionFailed targetId rest := by
  induction p with
  | nil => simp
  | cons x xs ih =>
    rw [List.cons_append, markActionFailed_cons,
      if_neg (hnot x (List.mem_cons_self x xs))]
    rw [ih (fun b hb => hnot b (List.mem_cons_of_mem x hb))]
    rfl

/-- C2: if `poll` (`checkPendingActions`) returns action `a` (marking it
`fired`), then `mark_failed(a.id)` re-arms it — `fired = false`,
`delivery_attempts` incremented — and a later `poll` at a time `now2` that
is ≥ `a.trigger_at`, within `a`'s TTL, and at which no other queued action
is due (poll returns only the FIRST due action in insertion order) returns
`a` again. -/
theorem claim2_mark_failed_rearm (l : List PendingAction) (now now2 : Int) (a : PendingAction)
    (hnodup : (l.map (fun x => x.id)).Nodup)
    (hpoll : (checkPendingActions now l).1 = some a)
    (hdue : a.triggerAt ≤ now2)
    (httl : now2 - a.createdAt < actionTtlMs)
    (hothers : ∀ b ∈ markActionFailed a.id (checkPendingActions now l).2,
      ¬ b.id = a.id → ¬ b.triggerAt ≤ now2) :
    ({ a with fired := false, deliveryAttempts := a.deliveryAttempts + 1 } ∈
      markActionFailed a.id (checkPendingActions now l).2) ∧
    (checkPendingActions now2 (markActionFailed a.id (checkPendingActions now l).2)).1 =
      some { a with fired := true, deliveryAttempts := a.deliveryAttempts + 1 } := by
  rcases fireFirst_some now (pruneActions now l) a hpoll with
    ⟨p, orig, q, hdec, ha, hsnd, hskip, hdueorig⟩
  subst ha
  have hl1 : (checkPendingActions now l).2 = p ++ { orig with fired := true } :: q := hsnd
  have hidsub : ((pruneActions now l).map (fun x => x.id)).Nodup := by
    refine hnodup.sublist ?_
    exact (List.filter_sublist l).map (fun x => x.id)
  have hids : (pruneActions now l).map (fun x => x.id) =
      p.map (fun x => x.id) ++ orig.id :: q.map (fun x => x.id) := by
    rw [hdec]
    simp
  have hnotin : ¬ orig.id ∈ p.map (fun x => x.id) := by
    rw [hids] at hidsub
    intro hmem
    exact (List.nodup_append.mp hidsub).2.2 hmem (List.mem_cons_self _ _)
  have hpne : ∀ b ∈ p, ¬ b.id = ({ orig with fired := true } : PendingAction).id := by
    intro b hb heq
    exact hnotin (heq ▸ List.mem_map_of_mem (fun x => x.id) hb)
  have hmark : markActionFailed ({ orig with fired := true } : PendingAction).id
      (checkPendingActions now l).2 =
      p ++ { orig with fired := false, deliveryAttempts := orig.deliveryAttempts + 1 } :: q := by
    rw [hl1, markActionFailed_skip _ p hpne, markActionFailed_cons, if_pos rfl]
  constructor
  · rw [hmark]
    exact List.mem_append_right p (List.mem_cons_self _ _)
  · obtain ⟨a2, ha2⟩ : ∃ a2 : PendingAction,
        ({ orig with fired := false, deliveryAttempts := orig.deliveryAttempts + 1 } :
          PendingAction) = a2 := ⟨_, rfl⟩
    have hfinal : ({ a2 with fired := true } : PendingAction) =
        { orig with fired := true, deliveryAttempts := orig.deliveryAttempts + 1 } := by
      rw [← ha2]
    rw [ha2] at hmark
    rw [hmark]
    unfold checkPendingActions
    have ha2f : a2.fired = false := by rw [← ha2]
    have ha2c : a2.createdAt = orig.createdAt := by rw [← ha2]
    have ha2t : a2.triggerAt = orig.triggerAt := by rw [← ha2]
    have hkeep : ((!a2.fired) && decide (now2 - a2.createdAt < actionTtlMs)) = true := by
      rw [ha2f, ha2c]
      simp only [Bool.not_false, Bool.true_and, decide_eq_true_eq]
      exact httl
    have hprune2 : pruneActions now2 (p ++ a2 :: q) =
        pruneActions now2 p ++ a2 :: pruneActions now2 q := by
      unfold pruneActions
      rw [List.filter_append]
      simp only [List.filter_cons, hkeep, if_true]
    rw [hprune2]
    have hskip2 : ∀ b ∈ pruneActions now2 p, actionDue now2 b = false := by
      intro b hb
      have hbp : b ∈ p := List.mem_of_mem_filter hb
      have hbl2 : b ∈ markActionFailed ({ orig with fired := true } : PendingAction).id
          (checkPendingActions now l).2 := by
        rw [hmark]
        exact List.mem_append_left _ hbp
      have hbne : ¬ b.id = ({ orig with fired := true } : PendingAction).id := hpne b hbp
      have hnd : ¬ b.triggerAt ≤ now2 := hothers b hbl2 hbne
      unfold actionDue
      simp only [Bool.and_eq_false_iff]
      right
      simpa using hnd
    rw [fireFirst_skip now2 _ hskip2]
    have hdue2 : actionDue now2 a2 = true := by
      unfold actionDue
      rw [ha2f, ha2t]
      simp only [Bool.not_false, Bool.true_and, decide_eq_true_eq]
      exact hdue
    rw [fireFirst_cons, if_pos hdue2]
    simp only [hfinal]

def c2Action : PendingAction :=
  { id := "action_0_abc123", message := "Ping me", createdAt := 0, triggerAt := 5,
    fired := false, deliveryAttempts := 0 }

theorem claim2_witness :
    ({ c2Action with fired := false, deliveryAttempts := 1 } ∈
      markActionFailed ({ c2Action with fired := true } : PendingAction).id
        (checkPendingActions 5 [c2Action]).2) ∧
    (checkPendingActions 6 (markActionFailed ({ c2Action with fired := true } : PendingAction).id
        (checkPendingActions 5 [c2Action]).2)).1 =
      some { c2Action with fired := true, deliveryAttempts := 1 } := by
  have h := claim2_mark_failed_rearm [c2Action] 5 6 { c2Action with fired := true }
    (by decide) (by decide) (by decide) (by decide) (by decide)
  exact h

/-- The delimiter class of `hashEmbedding`'s tokenizer:
`[\s,.;:!?，。；：！？()（）[\]{}"'\n\r\t]` (brace, double-quote and
apostrophe written via their code points). -/
def hashDelimiters : List Char :=
  [',', '.', ';', ':', '!', '?', '，', '。', '；', '：', '！', '？', '(', ')', '（', '）',
    '[', ']', Char.ofNat 123, Char.ofNat 125, Char.ofNat 34, Char.ofNat 39, '\n', '\r', '\t']

def isHashDelim (c : Char) : Bool :=
  isJsSpace c || hashDelimiters.contains c

/-- `(text || "").toLowerCase().split(<delimiter class>+).filter(Boolean)`:
the non-empty tokens of the hash-fallback embedder. -/
def hashTokens (text : Str) : List Str :=
  splitChunks isHashDelim (toLowerStr text)

/-- One step of the FNV-1a loop: `hash ^= token.charCodeAt(i); hash =
Math.imul(hash, 16777619)`.  JS `^` and `Math.imul` operate on 32-bit
values; the bit pattern is tracked as a `Nat` below `2^32`.  `charCodeAt`
yields UTF-16 code units; for the basic multilingual plane (all inputs
here) that is the code point. -/
def fnvStep (hash : Nat) (c : Char) : Nat :=
  ((Nat.xor hash (c.toNat % 65536)) % 4294967296 * 16777619) % 4294967296

def fnvHash (token : Str) : Nat :=
  token.foldl fnvStep 2166136261

/-- `Math.abs` applied to the signed 32-bit reading of the hash bits. -/
def int32Abs (bits : Nat) : Nat :=
  if bits < 2147483648 then bits else 4294967296 - bits

/-- `vector[idx] += 1` on a list-represented vector. -/
def incAt : Nat → List Nat → List Nat
  | _, [] => []
  | 0, v :: rest => (v + 1) :: rest
  | i + 1, v :: rest => v :: incAt i rest

/-- The token-bump loop of `hashEmbedding`, starting from the zero
vector. -/
def hashCounts (dim : Nat) (tokens : List Str) : List Nat :=
  tokens.foldl (fun vec token => incAt (int32Abs (fnvHash token) % dim) vec)
    (List.replicate dim 0)

/-- `Math.max(32, this.embeddingDims || 1024)` (`0` is falsy). -/
def hashVectorDim (embeddingDims : Option Nat) : Nat :=
  max 32 (match embeddingDims with
    | none => 1024
    | some d => if d = 0 then 1024 else d)

/-- `TransformersJsEmbedder.hashEmbedding` (src/src/embedder.ts) up to the
final normalization: the integer bump-count vector.  The source divides
every entry by `Math.sqrt(Σ vᵢ²)` when that norm is positive and returns
the vector unchanged (all zeros) otherwise; claim C10 states the
normalization over `ℝ`. -/
def hashEmbedding (embeddingDims : Option Nat) (text : Str) : List Nat :=
  hashCounts (hashVectorDim embeddingDims) (hashTokens text)

theorem length_incAt (i : Nat) (l : List Nat) : (incAt i l).length = l.length := by
  induction l generalizing i with
  | nil => cases i <;> rfl
  | cons v rest ih =>
    cases i with
    | zero => rfl
    | succ j => simp only [incAt, List.length_cons, ih j]

theorem sum_incAt (l : List Nat) : ∀ i, i < l.length → (incAt i l).sum = l.sum + 1 := by
  induction l with
  | nil => intro i h; simp at h
  | cons v rest ih =>
    intro i h
    cases i with
    | zero => simp [incAt]; omega
    | succ j =>
      simp only [incAt, List.sum_cons]
      have hj : j < rest.length := by simp at h; omega
      rw [ih j hj]
      omega

theorem hashCounts_go (dim : Nat) (hdim : 0 < dim) (tokens : List Str) :
    ∀ vec : List Nat, vec.length = dim →
      (tokens.foldl (fun v t => incAt (int32Abs (fnvHash t) % dim) v) vec).length = dim ∧
      (tokens.foldl (fun v t => incAt (int32Abs (fnvHash t) % dim) v) vec).sum =
        vec.sum + tokens.length := by
  induction tokens with
  | nil => intro vec hlen; simpa using hlen
  | cons t ts ih =>
    intro vec hlen
    have hidx : int32Abs (fnvHash t) % dim < vec.length := by
      rw [hlen]
      exact Nat.mod_lt _ hdim
    have hlen2 : (incAt (int32Abs (fnvHash t) % dim) vec).length = dim := by
      rw [length_incAt]
      exact hlen
    rcases ih (incAt (int32Abs (fnvHash t) % dim) vec) hlen2 with ⟨h1, h2⟩
    refine ⟨h1, ?_⟩
    simp only [List.foldl_cons]
    rw [h2, sum_incAt vec _ hidx]
    simp only [List.length_cons]
    omega

theorem sq_sum_pos (l : List ℕ) (h : 0 < l.sum) : 0 < (l.map (fun x => x * x)).sum := by
  by_contra hc
  push_neg at hc
  have h0 : (l.map (fun x => x * x)).sum = 0 := Nat.le_zero.mp hc
  have hall : ∀ x ∈ l, x = 0 := by
    intro x hx
    have hx2 : x * x = 0 :=
      List.sum_eq_zero_iff.mp h0 (x * x) (List.mem_map_of_mem (fun y => y * y) hx)
    exact mul_self_eq_zero.mp hx2
  have : l.sum = 0 := List.sum_eq_zero_iff.mpr hall
  omega

theorem sum_sq_div_sqrt (l : List ℕ) (S : ℕ)
    (hS : (l.map (fun x => x * x)).sum = S) (hpos : 0 < S) :
    ((l.map (fun x : ℕ => (x : ℝ) / Real.sqrt ((S : ℕ) : ℝ))).map (fun y : ℝ => y * y)).sum
      = 1 := by
  have hSR : (0 : ℝ) < ((S : ℕ) : ℝ) := by exact_mod_cast hpos
  have hmul : Real.sqrt ((S : ℕ) : ℝ) * Real.sqrt ((S : ℕ) : ℝ) = ((S : ℕ) : ℝ) :=
    Real.mul_self_sqrt (le_of_lt hSR)
  have hstep : ∀ l' : List ℕ,
      ((l'.map (fun x : ℕ => (x : ℝ) / Real.sqrt ((S : ℕ) : ℝ))).map
          (fun y : ℝ => y * y)).sum =
        (((l'.map (fun x => x * x)).sum : ℕ) : ℝ) / ((S : ℕ) : ℝ) := by
    intro l'
    induction l' with
    | nil => simp
    | cons x xs ih =>
      simp only [List.map_cons, List.sum_cons, ih]
      rw [div_mul_div_comm, hmul]
      push_cast
      rw [add_div]
  rw [hstep l, hS]
  exact div_self (ne_of_gt hSR)

/-- C10: under the hash-embedding fallback, the vector has dimension
`max(32, embeddingDims)` (for a positive configured `embeddingDims`); with
no tokens (empty or delimiter-only input) the result is the all-zero
vector, i.e. L2-norm 0, so the unit-norm contract fails there; with at
least one token the bump counts have positive squared sum and dividing by
the (real) L2 norm — what the source computes with `Math.sqrt` — yields a
vector of squared-sum exactly 1. -/
theorem claim10_hash_embedding (dims : Nat) (text : Str) (hd : 0 < dims) :
    (hashEmbedding (some dims) text).length = max 32 dims ∧
    (hashTokens text = [] →
      hashEmbedding (some dims) text = List.replicate (max 32 dims) 0) ∧
    (hashTokens text ≠ [] →
      0 < ((hashEmbedding (some dims) text).map (fun x => x * x)).sum ∧
      (((hashEmbedding (some dims) text).map (fun x : ℕ => (x : ℝ) /
          Real.sqrt (((((hashEmbedding (some dims) text).map (fun x => x * x)).sum : ℕ)) : ℝ))).map
        (fun y : ℝ => y * y)).sum = 1) := by
  have hdim_eq : hashVectorDim (some dims) = max 32 dims := by
    unfold hashVectorDim
    simp only
    rw [if_neg (Nat.pos_iff_ne_zero.mp hd)]
  have hdimpos : 0 < hashVectorDim (some dims) := by
    rw [hdim_eq]
    omega
  rcases hashCounts_go (hashVectorDim (some dims)) hdimpos (hashTokens text)
      (List.replicate (hashVectorDim (some dims)) 0) (by simp) with ⟨hlen, hsum⟩
  have h1 : (hashEmbedding (some dims) text).length = hashVectorDim (some dims) := hlen
  refine ⟨by rw [h1, hdim_eq], ?_, ?_⟩
  · intro h
    unfold hashEmbedding hashCounts
    rw [h, List.foldl_nil, hdim_eq]
  · intro hne
    have hsum2 : (hashEmbedding (some dims) text).sum =
        (List.replicate (hashVectorDim (some dims)) 0).sum + (hashTokens text).length := hsum
    have hpos : 0 < (hashEmbedding (some dims) text).sum := by
      rw [hsum2]
      simp only [List.sum_replicate, smul_eq_mul, Nat.mul_zero, Nat.zero_add]
      cases hts : hashTokens text with
      | nil => exact absurd hts hne
      | cons a t => simp
    have hsq := sq_sum_pos _ hpos
    exact ⟨hsq, sum_sq_div_sqrt _ _ rfl hsq⟩

def c10Text : Str := "hello world".data

theorem claim10_witness :
    (hashEmbedding (some 32) c10Text).length = max 32 32 ∧
    0 < ((hashEmbedding (some 32) c10Text).map (fun x => x * x)).sum :=
  ⟨(claim10_hash_embedding 32 c10Text (by decide)).1,
   ((claim10_hash_embedding 32 c10Text (by decide)).2.2 (by decide)).1⟩

end Mem0
